import Mathlib

/-!
# Verification of the SkillStack PPTX → PDF conversion pipeline

Shallow embedding of the PowerPoint-to-PDF converter
(`src/components/FileConverter/pptConverter.js`, with the vertical-anchor
layout taken from the repository's other `pptConverter.js` revision) and
proofs about its slide discovery, unit conversion, relationship
resolution, text-run joining, entity decoding, word wrapping, vertical
anchoring, progress reporting and per-slide error recovery.

Strings from the JavaScript source are modelled as `List Char`; the
IEEE-754 double-precision arithmetic used for the EMU → pixel ratio is
modelled exactly as dyadic rationals (round-to-nearest-even to 53
significant bits, exact for the normal range of doubles, which covers
every value the converter manipulates).
-/

namespace SkillStack

/-! ## IEEE-754 double model (normal range)

The converter computes `const emuToPixel = 96 / 914400` and multiplies
EMU coordinates by it, both in JavaScript double precision.  A double is
represented as a dyadic rational `m * 2 ^ e`. -/

/-- A dyadic rational `m * 2 ^ e`; the result of rounding to double
precision always has this shape. -/
structure Dyadic where
  m : ℤ
  e : ℤ
  deriving DecidableEq, Repr

/-- `2 ^ e` as a rational, for an integer exponent. -/
def pow2 (e : ℤ) : ℚ :=
  if 0 ≤ e then ((2 ^ e.toNat : ℕ) : ℚ) else 1 / ((2 ^ (-e).toNat : ℕ) : ℚ)

/-- The exact rational value of a dyadic. -/
def Dyadic.toRat (d : Dyadic) : ℚ := (d.m : ℚ) * pow2 d.e

/-- Fuelled bit-length helper (structural recursion so that the kernel
can evaluate it). -/
def bitlenGo : ℕ → ℕ → ℕ
  | 0, _ => 0
  | _ + 1, 0 => 0
  | f + 1, n + 1 => bitlenGo f ((n + 1) / 2) + 1

/-- Number of binary digits of `n` (`0` for `0`). -/
def bitlen (n : ℕ) : ℕ := bitlenGo n n

/-- Round `a / b` (with `a, b > 0`) to the nearest integer, ties to
even. -/
def roundHalfEvenPos (a b : ℕ) : ℕ :=
  let n := a / b
  let r := a % b
  if 2 * r < b then n
  else if b < 2 * r then n + 1
  else if n % 2 = 0 then n else n + 1

/-- Round the positive fraction `a / b` to 53 significant bits, ties to
even: IEEE-754 double rounding in the normal range. -/
def flPosFrac (a b : ℕ) : Dyadic :=
  let c : ℤ := (bitlen a : ℤ) - (bitlen b : ℤ)
  let twoPowLe : Bool := if 0 ≤ c then 2 ^ c.toNat * b ≤ a else b ≤ 2 ^ (-c).toNat * a
  let e : ℤ := if twoPowLe then c else c - 1
  let s : ℤ := 52 - e
  let mant : ℕ :=
    if 0 ≤ s then roundHalfEvenPos (a * 2 ^ s.toNat) b
    else roundHalfEvenPos a (b * 2 ^ (-s).toNat)
  ⟨(mant : ℤ), e - 52⟩

/-- Rounding of the fraction `a / b` to the nearest representable
double. -/
def flFrac (a b : ℕ) : Dyadic :=
  if a = 0 ∨ b = 0 then ⟨0, 0⟩ else flPosFrac a b

/-- Rounding of an exact dyadic value (e.g. the product of an integer
and a double) to the nearest representable double. -/
def flDyadic (d : Dyadic) : Dyadic :=
  if d.m ≤ 0 then ⟨0, 0⟩
  else if 0 ≤ d.e then flFrac (d.m.toNat * 2 ^ d.e.toNat) 1
  else flFrac d.m.toNat (2 ^ (-d.e).toNat)

/-- JavaScript double multiplication of the non-negative integer `v`
(the result of `parseInt` on a digit string) with a double. -/
def jsMulNat (v : ℕ) (d : Dyadic) : Dyadic := flDyadic ⟨(v : ℤ) * d.m, d.e⟩

/-! ## EMU → pixel conversion (`pptConverter.js`)

`const emuToPixel = 96 / 914400;` followed by
`parseInt(...) * emuToPixel` — the fixed ratio of 914400 EMU per inch
at the hard-coded 96 DPI. -/

/-- The double constant `96 / 914400` computed by the converter. -/
def emuToPixel : Dyadic := flFrac 96 914400

/-- EMU to pixels exactly as the converter computes it (at 96 DPI). -/
def emuToPixels (value : ℕ) : Dyadic := jsMulNat value emuToPixel

/-- Modelled from the spec: the spec's contract `emuToPixels(value, dpi)`
takes the DPI as a parameter, while the source hard-codes 96 DPI; the
generalisation replaces the constant 96 of the ratio `96 / 914400` by
`dpi`. -/
def emuToPixelsAt (dpi value : ℕ) : Dyadic := jsMulNat value (flFrac dpi 914400)

theorem emuToPixels_eq_at96 (value : ℕ) : emuToPixels value = emuToPixelsAt 96 value := rfl

-- sanity: the double `96 / 914400` and one inch at 96 DPI
example : emuToPixel = ⟨7746664177935770, -66⟩ := by decide
example : emuToPixels 914400 = ⟨6755399441055744, -46⟩ := by decide

theorem emuToPixelsAt_zero (dpi : ℕ) : emuToPixelsAt dpi 0 = ⟨0, 0⟩ := by
  simp [emuToPixelsAt, jsMulNat, flDyadic]

/-- C3: the EMU-to-pixel conversion uses the fixed ratio 914400 EMU per
inch and is exact at the spec's test points: 914400 EMU at 96 DPI is
exactly 96 pixels (in the converter's own double arithmetic), and 0 EMU
converts to exactly 0 for every DPI. -/
theorem emu_conversion_exact :
    (emuToPixels 914400).toRat = 96 ∧ ∀ dpi : ℕ, (emuToPixelsAt dpi 0).toRat = 0 := by
  constructor
  · have h : emuToPixels 914400 = ⟨6755399441055744, -46⟩ := by decide
    rw [h]
    show ((6755399441055744 : ℤ) : ℚ) * pow2 (-46) = 96
    rw [pow2]
    norm_num
    rw [show Int.toNat 46 = 46 from rfl]
    norm_num
  · intro dpi
    rw [emuToPixelsAt_zero]
    show ((0 : ℤ) : ℚ) * pow2 0 = 0
    norm_num

/-! ## Vertical anchoring of text shapes

From the repository's anchor-aware `drawSlideText` revision:
`let yOffset = 2; if (middle) yOffset = (boxHeight - totalTextHeight)/2;
else if (bottom) yOffset = boxHeight - totalTextHeight - 5;
yOffset = Math.max(yOffset, 2);`. -/

/-- The `<a:bodyPr anchor="...">` values recognised by the converter
(`ctr` ↦ middle, `b` ↦ bottom, anything else ↦ top). -/
inductive VAnchor where
  | top | middle | bottom
  deriving DecidableEq, Repr

/-- The vertical start offset of the first laid-out line inside a text
shape, as computed by `drawSlideText`. -/
def verticalStartOffset (anchor : VAnchor) (boxHeight totalTextHeight : ℚ) : ℚ :=
  max
    (match anchor with
      | .top => 2
      | .middle => (boxHeight - totalTextHeight) / 2
      | .bottom => boxHeight - totalTextHeight - 5)
    2

/-- C6: for a text shape whose laid-out text is taller than the shape
(`boxHeight < totalTextHeight`), the computed vertical start offset is
clamped to be non-negative for every anchor — in particular for the
"bottom" and "middle" anchors — so the first line is never placed above
the shape's top edge. -/
theorem vertical_offset_clamped (anchor : VAnchor) (boxHeight totalTextHeight : ℚ)
    (h : boxHeight < totalTextHeight) :
    0 ≤ verticalStartOffset anchor boxHeight totalTextHeight := by
  refine le_trans (by norm_num : (0 : ℚ) ≤ 2) ?_
  exact le_max_right _ _

theorem vertical_offset_clamped_witness :
    (10 : ℚ) < 20 ∧ 0 ≤ verticalStartOffset .bottom 10 20 :=
  ⟨by norm_num, vertical_offset_clamped .bottom 10 20 (by norm_num)⟩

/-! ## Relationship resolution (`loadSlideRelationships`)

The manifest `ppt/slides/_rels/slideN.xml.rels` is parsed with regexes
into `<Relationship ...>` tags and their `Id`, `Target` and `Type`
attributes; an absent manifest file yields an empty mapping. -/

/-- The result of the three attribute regexes on one
`<Relationship ...>` tag (each may fail to match). -/
structure RelEntryRaw where
  idAttr : Option (List Char)
  targetAttr : Option (List Char)
  typeAttr : Option (List Char)

/-- A resolved relationship: normalized target path and optional type. -/
structure RelTarget where
  target : List Char
  relType : Option (List Char)
  deriving DecidableEq

/-- Path normalization of a relationship target
(`pptConverter.js:189-193`). -/
def normalizeTarget (t : List Char) : List Char :=
  if "../".toList.isPrefixOf t then "ppt/".toList ++ t.drop 3
  else if ¬ "/".toList.isPrefixOf t ∧ ¬ "ppt/".toList.isPrefixOf t then
    "ppt/slides/".toList ++ t
  else t

/-- JavaScript object assignment `rels[id] = v`: an existing key keeps
its position and gets the new value, a new key is appended. -/
def setRel (rels : List (List Char × RelTarget)) (k : List Char) (v : RelTarget) :
    List (List Char × RelTarget) :=
  if rels.any (fun p => p.1 = k) then rels.map (fun p => if p.1 = k then (k, v) else p)
  else rels ++ [(k, v)]

/-- The loop over relationship tags: entries with both an `Id` and a
`Target` are recorded with the normalized target, others are dropped. -/
def relsOfEntries : List RelEntryRaw → List (List Char × RelTarget) → List (List Char × RelTarget)
  | [], rels => rels
  | e :: es, rels =>
    match e.idAttr, e.targetAttr with
    | some i, some t => relsOfEntries es (setRel rels i ⟨normalizeTarget t, e.typeAttr⟩)
    | _, _ => relsOfEntries es rels

/-- `loadSlideRelationships`: `none` models an absent manifest entry
(`pptxContent.file(relPath)` returned `null`). -/
def loadSlideRelationships (manifest? : Option (List RelEntryRaw)) :
    List (List Char × RelTarget) :=
  match manifest? with
  | none => []
  | some entries => relsOfEntries entries []

/-- C7: relationship targets are normalized by exactly the three-case
rule — `../`-relative targets are rewritten under the package's `ppt/`
content folder, bare filenames (no leading `/`, not already under
`ppt/`) are rewritten under `ppt/slides/`, anything else is used as-is —
and an absent manifest resolves to an empty table rather than an
error. -/
theorem relationship_target_normalization (t : List Char) :
    loadSlideRelationships none = []
    ∧ ("../".toList <+: t →
        normalizeTarget t = "ppt/".toList ++ t.drop 3)
    ∧ (¬ "../".toList <+: t → ¬ "/".toList <+: t →
        ¬ "ppt/".toList <+: t →
        normalizeTarget t = "ppt/slides/".toList ++ t)
    ∧ (¬ "../".toList <+: t →
        ("/".toList <+: t ∨ "ppt/".toList <+: t) →
        normalizeTarget t = t) := by
  refine ⟨rfl, ?_, ?_, ?_⟩
  · intro h
    simp at h
    simp [normalizeTarget, h]
  · intro h1 h2 h3
    simp at h1 h2 h3
    simp [normalizeTarget, h1, h2, h3]
  · intro h1 h2
    simp at h1
    rcases h2 with h2 | h2 <;> (simp at h2; simp [normalizeTarget, h1, h2])

theorem relationship_target_normalization_witness :
    normalizeTarget "../media/image1.png".toList = "ppt/media/image1.png".toList :=
  (relationship_target_normalization "../media/image1.png".toList).2.1 (by decide)

/-! ## Progress reporting (`convertPptToPdf`)

The orchestrator calls `progressCallback(10)`, then `(20)` after slide
discovery, then `30 + Math.floor((i / totalSlides) * 60)` before each
slide `i`, then `(95)` and finally `(100)`.  `Math.floor((i/n) * 60)`
is modelled by natural division `60 * i / n`. -/

/-- The sequence of values passed to the progress callback over one
successful conversion of `n` slides. -/
def progressSequence (n : ℕ) : List ℕ :=
  10 :: 20 :: ((List.range n).map (fun i => 30 + 60 * i / n) ++ [95, 100])

theorem progress_entry_bounds {n v : ℕ} (hn : 0 < n)
    (hv : v ∈ (List.range n).map (fun i => 30 + 60 * i / n)) : 30 ≤ v ∧ v ≤ 89 := by
  rcases List.mem_map.mp hv with ⟨i, hi, rfl⟩
  have hi' : i < n := List.mem_range.mp hi
  constructor
  · exact Nat.le_add_right _ _
  · have : 60 * i / n < 60 := by
      rw [Nat.div_lt_iff_lt_mul hn]
      omega
    omega

/-- C8: for every successful conversion, the values passed to the
progress callback form a monotonically non-decreasing sequence of
integers within [0,100]; the callback fires at the start (first value
10) and its final invocation passes exactly 100. -/
theorem progress_monotone (n : ℕ) (h : 0 < n) :
    List.Sorted (· ≤ ·) (progressSequence n)
    ∧ (∀ v ∈ progressSequence n, v ≤ 100)
    ∧ (progressSequence n).head? = some 10
    ∧ (progressSequence n).getLast? = some 100 := by
  have hmap : ∀ v ∈ (List.range n).map (fun i => 30 + 60 * i / n), 30 ≤ v ∧ v ≤ 89 :=
    fun v hv => progress_entry_bounds h hv
  refine ⟨?_, ?_, rfl, ?_⟩
  · refine List.sorted_cons.mpr ⟨?_, List.sorted_cons.mpr ⟨?_, ?_⟩⟩
    · intro b hb
      rcases List.mem_cons.mp hb with rfl | hb
      · norm_num
      rcases List.mem_append.mp hb with hb | hb
      · exact le_trans (by norm_num) (hmap _ hb).1
      · rcases List.mem_cons.mp hb with rfl | hb
        · norm_num
        simp only [List.mem_singleton] at hb
        omega
    · intro b hb
      rcases List.mem_append.mp hb with hb | hb
      · exact le_trans (by norm_num) (hmap _ hb).1
      · rcases List.mem_cons.mp hb with rfl | hb
        · norm_num
        simp only [List.mem_singleton] at hb
        omega
    · refine List.pairwise_append.mpr ⟨?_, ?_, ?_⟩
      · refine List.Pairwise.map _ ?_ (List.pairwise_lt_range n)
        intro a b hab
        exact Nat.add_le_add_left (Nat.div_le_div_right (Nat.mul_le_mul_left 60 hab.le)) 30
      · exact List.pairwise_cons.mpr ⟨fun b hb => by simp_all, List.pairwise_singleton _ _⟩
      · intro a ha b hb
        have := (hmap _ ha).2
        rcases List.mem_cons.mp hb with rfl | hb
        · omega
        simp only [List.mem_singleton] at hb
        omega
  · intro v hv
    rcases List.mem_cons.mp hv with rfl | hv
    · norm_num
    rcases List.mem_cons.mp hv with rfl | hv
    · norm_num
    rcases List.mem_append.mp hv with hv | hv
    · exact le_trans (hmap _ hv).2 (by norm_num)
    · rcases List.mem_cons.mp hv with rfl | hv
      · norm_num
      simp only [List.mem_singleton] at hv
      omega
  · have e : progressSequence n =
        (10 :: 20 :: ((List.range n).map (fun i => 30 + 60 * i / n) ++ [95])) ++ [100] := by
      simp [progressSequence]
    rw [e, List.getLast?_concat]

theorem progress_monotone_witness :
    0 < 3
    ∧ (List.Sorted (· ≤ ·) (progressSequence 3)
        ∧ (∀ v ∈ progressSequence 3, v ≤ 100)
        ∧ (progressSequence 3).head? = some 10
        ∧ (progressSequence 3).getLast? = some 100) :=
  ⟨by decide, progress_monotone 3 (by decide)⟩

/-! ## Joining of text runs (`drawSlideText`, lines 655-696)

Between consecutive runs of a paragraph an inferred space is prefixed
to the next run unless its text starts with, or the previous processed
run's text ends with, a space or one of `, . ; :`. -/

/-- `text.startsWith(c)` for a single character. -/
def startsWithChar (t : List Char) (c : Char) : Bool :=
  match t with
  | [] => false
  | d :: _ => d = c

/-- `text.endsWith(c)` for a single character. -/
def endsWithChar (t : List Char) (c : Char) : Bool :=
  match t.getLast? with
  | none => false
  | some d => d = c

/-- The ten-condition test of lines 664-673: a space is inferred exactly
when none of the boundary characters is a space or terminal
punctuation. -/
def needsSpace (prevText text : List Char) : Bool :=
  !startsWithChar text ' ' && !startsWithChar text ',' && !startsWithChar text '.' &&
  !startsWithChar text ';' && !startsWithChar text ':' &&
  !endsWithChar prevText ' ' && !endsWithChar prevText ',' && !endsWithChar prevText '.' &&
  !endsWithChar prevText ';' && !endsWithChar prevText ':'

/-- The run-processing loop: empty-text runs are skipped, the first
processed run gets no prefix, and later runs get a single inferred
space when `needsSpace` holds against the previous processed run. -/
def processRuns (acc : List (List Char)) : List (List Char) → List (List Char)
  | [] => acc
  | t :: ts =>
    if t = [] then processRuns acc ts
    else
      match acc.getLast? with
      | none => processRuns (acc ++ [t]) ts
      | some prev => processRuns (acc ++ [(if needsSpace prev t then [' '] else []) ++ t]) ts

/-- `combinedText = processedRuns.map(run => run.text).join('')`. -/
def joinRuns (runs : List (List Char)) : List Char := (processRuns [] runs).flatten

/-- `true` for the terminal punctuation characters named by the spec. -/
def isTerminalPunct (c : Char) : Bool := c = ',' || c = '.' || c = ';' || c = ':'

/-- Modelled from the spec: "consecutive runs within a paragraph are
concatenated with an inferred single space only when neither the
trailing character of the previous run nor the leading character of the
next run is whitespace or terminal punctuation" — with "whitespace"
read as any whitespace character. -/
def specNeedsSpace (prevText text : List Char) : Bool :=
  match prevText.getLast?, text.head? with
  | some a, some b =>
    !(a.isWhitespace || isTerminalPunct a || b.isWhitespace || isTerminalPunct b)
  | _, _ => false

/-- C5 counterexample: for the runs `["A\t", "B"]` the previous run's
trailing character is whitespace (a tab), yet the converter checks only
for the space character and therefore inserts an inferred space,
contradicting the claim's "whitespace" rule. -/
theorem run_join_whitespace_counterexample :
    needsSpace "A\t".toList "B".toList = true
    ∧ Char.isWhitespace '\t' = true
    ∧ joinRuns ["A\t".toList, "B".toList] = "A\t B".toList
    ∧ specNeedsSpace "A\t".toList "B".toList = false := by decide

/-- C5 (amended): a single inferred space is inserted between two runs
exactly when neither the trailing character of the previous run nor the
leading character of the next run is the space character or terminal
punctuation (`,`, `.`, `;`, `:`); in particular `["Hello", "World"]`
joins to `"Hello World"` and `["Hello, ", "World"]` joins to
`"Hello, World"` with no double space. -/
theorem run_join_rule (prev next : List Char) (h1 : prev ≠ []) (h2 : next ≠ []) :
    joinRuns [prev, next] = prev ++ (if needsSpace prev next then [' '] else []) ++ next
    ∧ joinRuns ["Hello".toList, "World".toList] = "Hello World".toList
    ∧ joinRuns ["Hello, ".toList, "World".toList] = "Hello, World".toList := by
  refine ⟨?_, by decide, by decide⟩
  simp [joinRuns, processRuns, h1, h2]

theorem run_join_rule_witness :
    ("Hello".toList ≠ ([] : List Char) ∧ "World".toList ≠ ([] : List Char))
    ∧ joinRuns ["Hello".toList, "World".toList] =
        "Hello".toList ++
          (if needsSpace "Hello".toList "World".toList then [' '] else []) ++ "World".toList :=
  ⟨⟨by decide, by decide⟩,
    (run_join_rule "Hello".toList "World".toList (by decide) (by decide)).1⟩

/-! ## Skipping of elements without a transform

`drawSlideShapes` (lines 325-332), `drawSlideImages` (lines 436-443)
and `drawSlideText` (lines 516-522) all `continue` to the next element
when the `<a:xfrm>` block is missing, or when the `<a:off>` or
`<a:ext>` match inside it fails. -/

/-- The offset/extent regex results inside one `<a:xfrm>` block. -/
structure XfrmInner where
  off : Option (ℕ × ℕ)
  ext : Option (ℕ × ℕ)
  deriving DecidableEq

/-- A drawing rectangle in pixels (doubles). -/
structure PxRect where
  x : Dyadic
  y : Dyadic
  w : Dyadic
  h : Dyadic
  deriving DecidableEq

/-- Transform extraction shared by the three drawing passes: `none`
models the `continue` on a missing transform, offset or extent. -/
def shapeRect (xfrm? : Option XfrmInner) : Option PxRect :=
  match xfrm? with
  | none => none
  | some inner =>
    match inner.off, inner.ext with
    | some (ox, oy), some (cx, cy) =>
      some ⟨emuToPixels ox, emuToPixels oy, emuToPixels cx, emuToPixels cy⟩
    | _, _ => none

/-- `drawSlideImages` per-picture step: the blip relationship and media
lookup (modelled by `media?`) are checked first, then the transform. -/
def picRect {μ : Type} (media? : Option μ) (xfrm? : Option XfrmInner) : Option (μ × PxRect) :=
  match media? with
  | none => none
  | some m => (shapeRect xfrm?).map (fun r => (m, r))

/-- `drawSlideText` per-shape step: the text body is checked first, then
the transform. -/
def textShapeRect {β : Type} (txBody? : Option β) (xfrm? : Option XfrmInner) :
    Option (β × PxRect) :=
  match txBody? with
  | none => none
  | some b => (shapeRect xfrm?).map (fun r => (b, r))

/-- The `for`-loop over shape elements: elements whose transform is
missing are skipped, the rest are drawn in order. -/
def drawShapesLoop : List (Option XfrmInner) → List PxRect
  | [] => []
  | el :: rest =>
    match shapeRect el with
    | none => drawShapesLoop rest
    | some r => r :: drawShapesLoop rest

/-- C10: a shape, picture or text-shape element whose XML lacks a
transform (no `<a:xfrm>` block, or a missing offset or extent inside
it) is silently skipped: it produces no drawing command in any of the
three passes, and the surrounding loop simply moves on to the next
element instead of failing. -/
theorem missing_transform_skipped {μ β : Type} (xfrm? : Option XfrmInner)
    (media? : Option μ) (txBody? : Option β) (rest : List (Option XfrmInner))
    (h : xfrm? = none ∨ ∃ inner, xfrm? = some inner ∧ (inner.off = none ∨ inner.ext = none)) :
    shapeRect xfrm? = none
    ∧ picRect media? xfrm? = none
    ∧ textShapeRect txBody? xfrm? = none
    ∧ drawShapesLoop (xfrm? :: rest) = drawShapesLoop rest := by
  have hs : shapeRect xfrm? = none := by
    rcases h with rfl | ⟨inner, rfl, h⟩
    · rfl
    rcases inner with ⟨off, ext⟩
    rcases h with rfl | rfl
    · rfl
    · cases off <;> rfl
  refine ⟨hs, ?_, ?_, ?_⟩
  · cases media? <;> simp [picRect, hs]
  · cases txBody? <;> simp [textShapeRect, hs]
  · simp [drawShapesLoop, hs]

theorem missing_transform_skipped_witness :
    ((some ⟨none, some (1, 2)⟩ : Option XfrmInner) = none
      ∨ ∃ inner, (some ⟨none, some (1, 2)⟩ : Option XfrmInner) = some inner
          ∧ (inner.off = none ∨ inner.ext = none))
    ∧ shapeRect (some ⟨none, some (1, 2)⟩) = none
    ∧ picRect (some ()) (some ⟨none, some (1, 2)⟩) = none
    ∧ textShapeRect (some ()) (some ⟨none, some (1, 2)⟩) = none
    ∧ drawShapesLoop [some ⟨none, some (1, 2)⟩, none] = drawShapesLoop [none] :=
  ⟨Or.inr ⟨⟨none, some (1, 2)⟩, rfl, Or.inl rfl⟩,
    missing_transform_skipped (some ⟨none, some (1, 2)⟩) (some ()) (some ()) [none]
      (Or.inr ⟨⟨none, some (1, 2)⟩, rfl, Or.inl rfl⟩)⟩

/-! ## Slide discovery and ordering (`convertPptToPdf`, lines 44-57)

`Object.keys(pptxContent.files)` is filtered by
`/ppt\/slides\/slide\d+\.xml$/`, the numeric index is captured by
`/slide(\d+)\.xml$/` and parsed with `parseInt`, and the slide files are
sorted ascending by that number.  Both regexes are equivalent to: the
path ends in `.xml`, preceded by a nonempty maximal digit run, preceded
by the literal stem (`slide` resp. `ppt/slides/slide` — the stem's last
character is not a digit, so the backtracking regex always captures the
whole maximal digit run). -/

/-- Drop a suffix from a path if present. -/
def stripSuffix (l suf : List Char) : Option (List Char) :=
  if suf.isSuffixOf l then some (l.take (l.length - suf.length)) else none

/-- The maximal trailing digit run of a name. -/
def trailingDigits (l : List Char) : List Char :=
  (l.reverse.takeWhile Char.isDigit).reverse

/-- `parseInt` on a digit string. -/
def digitsToNat (ds : List Char) : ℕ :=
  ds.foldl (fun a c => 10 * a + (c.toNat - '0'.toNat)) 0

/-- The capture of `path.match(/slide(\d+)\.xml$/)` followed by
`parseInt(match[1], 10)`. -/
def slideEntryNumber (p : List Char) : Option ℕ :=
  match stripSuffix p ".xml".toList with
  | none => none
  | some q =>
    let ds := trailingDigits q
    if ds = [] then none
    else if "slide".toList.isSuffixOf (q.take (q.length - ds.length)) then
      some (digitsToNat ds)
    else none

/-- The filter regex `/ppt\/slides\/slide\d+\.xml$/`. -/
def isSlideEntry (p : List Char) : Bool :=
  match stripSuffix p ".xml".toList with
  | none => false
  | some q =>
    let ds := trailingDigits q
    !ds.isEmpty && "ppt/slides/slide".toList.isSuffixOf (q.take (q.length - ds.length))

/-- The comparator `(a, b) => a.number - b.number` of the slide sort. -/
def bySlideNumber (a b : List Char × ℕ) : Prop := a.2 ≤ b.2

instance : DecidableRel bySlideNumber := fun a b => inferInstanceAs (Decidable (a.2 ≤ b.2))

instance : IsTotal (List Char × ℕ) bySlideNumber := ⟨fun a b => Nat.le_total a.2 b.2⟩

instance : IsTrans (List Char × ℕ) bySlideNumber := ⟨fun _ _ _ => Nat.le_trans⟩

/-- Slide discovery: filter the container's entry names by the slide
pattern, pair each with its extracted number, and sort ascending by
number. -/
def discoverSlides (entries : List (List Char)) : List (List Char × ℕ) :=
  List.insertionSort bySlideNumber
    ((entries.filter isSlideEntry).map (fun p => (p, (slideEntryNumber p).getD 0)))

-- sanity: entries enumerated out of order are discovered in numeric order
example :
    discoverSlides ["ppt/slides/slide10.xml".toList, "ppt/media/image1.png".toList,
        "ppt/slides/slide2.xml".toList, "ppt/slides/slide1.xml".toList] =
      [("ppt/slides/slide1.xml".toList, 1), ("ppt/slides/slide2.xml".toList, 2),
        ("ppt/slides/slide10.xml".toList, 10)] := by decide

/-- C2: slides are discovered by the slide-XML naming pattern with their
numeric index extracted from the entry name, and are processed in
ascending order of that index: the discovered list is always sorted by
index, it is a permutation of the pattern-filtered entries keyed by
their extracted numbers, and the sequence of slide indices is
independent of the container's enumeration order. -/
theorem slide_discovery_order (entries e₁ e₂ : List (List Char)) (hperm : e₁.Perm e₂) :
    List.Sorted bySlideNumber (discoverSlides entries)
    ∧ (discoverSlides entries).Perm
        ((entries.filter isSlideEntry).map (fun p => (p, (slideEntryNumber p).getD 0)))
    ∧ (discoverSlides e₁).map Prod.snd = (discoverSlides e₂).map Prod.snd := by
  refine ⟨List.sorted_insertionSort _ _, List.perm_insertionSort _ _, ?_⟩
  have hp : (discoverSlides e₁).Perm (discoverSlides e₂) :=
    (List.perm_insertionSort _ _).trans
      (((hperm.filter _).map _).trans (List.perm_insertionSort _ _).symm)
  have hsorted : ∀ e : List (List Char),
      List.Sorted (· ≤ ·) ((discoverSlides e).map Prod.snd) := by
    intro e
    rw [List.Sorted, List.pairwise_map]
    exact List.sorted_insertionSort bySlideNumber _
  exact List.eq_of_perm_of_sorted (hp.map _) (hsorted e₁) (hsorted e₂)

theorem slide_discovery_order_witness :
    (["ppt/slides/slide2.xml".toList, "ppt/slides/slide1.xml".toList] : List (List Char)).Perm
      ["ppt/slides/slide1.xml".toList, "ppt/slides/slide2.xml".toList]
    ∧ ((discoverSlides ["ppt/slides/slide2.xml".toList, "ppt/slides/slide1.xml".toList]).map
          Prod.snd =
        (discoverSlides ["ppt/slides/slide1.xml".toList,
            "ppt/slides/slide2.xml".toList]).map Prod.snd) :=
  ⟨List.Perm.swap _ _ _,
    (slide_discovery_order [] _ _ (List.Perm.swap _ _ _)).2.2⟩

/-! ## The conversion orchestrator (`convertPptToPdf`, lines 11-159)

Per slide, the whole extraction/rasterization/embedding `try` block is
abstracted as a fallible `process` function; the `catch` adds an error
page showing the slide number and the thrown message. -/

/-- A page of the output PDF: a successfully rendered slide image, or an
error page carrying the slide's number and the error message. -/
inductive PdfPage (α : Type) where
  | image (slideNumber : ℕ) (content : α)
  | error (slideNumber : ℕ) (message : List Char)
  deriving DecidableEq

/-- The conversion orchestrator: discover and sort slides, throw
`No slides found` when there are none, then for each slide in order add
a rendered page, or an error page with the slide number and message
when that slide's processing throws. -/
def convertPptToPdf {α : Type} (entries : List (List Char))
    (process : List Char × ℕ → Except (List Char) α) :
    Except (List Char) (List (PdfPage α)) :=
  let slideFiles := discoverSlides entries
  if slideFiles.isEmpty then Except.error "No slides found in the presentation".toList
  else
    Except.ok (slideFiles.map (fun sf =>
      match process sf with
      | Except.ok page => PdfPage.image sf.2 page
      | Except.error msg => PdfPage.error sf.2 msg))

/-- C1: when `N > 0` slide entries are discovered, the conversion
succeeds with exactly `N` pages — positionally, each slide whose
processing succeeds contributes one rendered page and each slide whose
processing throws contributes one error page carrying its number and
message, so per-slide failures never change the page count. -/
theorem page_count_invariant {α : Type} (entries : List (List Char))
    (process : List Char × ℕ → Except (List Char) α)
    (h : discoverSlides entries ≠ []) :
    ∃ pages : List (PdfPage α),
      convertPptToPdf entries process = Except.ok pages
      ∧ pages.length = (discoverSlides entries).length
      ∧ ∀ pr ∈ pages.zip (discoverSlides entries),
          (∀ a, process pr.2 = Except.ok a → pr.1 = PdfPage.image pr.2.2 a)
          ∧ ∀ m, process pr.2 = Except.error m → pr.1 = PdfPage.error pr.2.2 m := by
  have hne : (discoverSlides entries).isEmpty = false := by
    cases he : discoverSlides entries
    · exact absurd he h
    · rfl
  refine ⟨(discoverSlides entries).map (fun sf =>
      match process sf with
      | Except.ok page => PdfPage.image sf.2 page
      | Except.error msg => PdfPage.error sf.2 msg), ?_, by simp, ?_⟩
  · rw [convertPptToPdf]
    simp [hne]
  · intro pr hpr
    have hzip : ∀ pr' ∈ ((discoverSlides entries).map (fun sf =>
        match process sf with
        | Except.ok page => PdfPage.image sf.2 page
        | Except.error msg => PdfPage.error sf.2 msg)).zip (discoverSlides entries),
        pr'.1 = match process pr'.2 with
          | Except.ok page => PdfPage.image pr'.2.2 page
          | Except.error msg => PdfPage.error pr'.2.2 msg := by
      intro pr' hpr'
      have := List.zip_map' (fun sf : List Char × ℕ =>
        match process sf with
        | Except.ok page => PdfPage.image sf.2 page
        | Except.error msg => PdfPage.error sf.2 msg) id (discoverSlides entries)
      rw [List.map_id] at this
      rw [this] at hpr'
      rcases List.mem_map.mp hpr' with ⟨sf, _, rfl⟩
      rfl
    have hpr1 := hzip pr hpr
    constructor
    · intro a ha
      rw [hpr1, ha]
    · intro m hm
      rw [hpr1, hm]

theorem page_count_invariant_witness :
    discoverSlides ["ppt/slides/slide2.xml".toList, "ppt/slides/slide1.xml".toList] ≠ []
    ∧ ∃ pages : List (PdfPage ℕ),
        convertPptToPdf ["ppt/slides/slide2.xml".toList, "ppt/slides/slide1.xml".toList]
            (fun sf => if sf.2 = 1 then Except.ok 7 else Except.error "bad".toList) =
          Except.ok pages
        ∧ pages.length =
            (discoverSlides
              ["ppt/slides/slide2.xml".toList, "ppt/slides/slide1.xml".toList]).length
        ∧ ∀ pr ∈ pages.zip
            (discoverSlides ["ppt/slides/slide2.xml".toList, "ppt/slides/slide1.xml".toList]),
            (∀ a, (fun sf : List Char × ℕ =>
                if sf.2 = 1 then Except.ok 7 else Except.error "bad".toList) pr.2 =
                  Except.ok a → pr.1 = PdfPage.image pr.2.2 a)
            ∧ ∀ m, (fun sf : List Char × ℕ =>
                if sf.2 = 1 then Except.ok 7 else Except.error "bad".toList) pr.2 =
                  Except.error m → pr.1 = PdfPage.error pr.2.2 m :=
  ⟨by decide,
    page_count_invariant ["ppt/slides/slide2.xml".toList, "ppt/slides/slide1.xml".toList]
      (fun sf => if sf.2 = 1 then Except.ok 7 else Except.error "bad".toList) (by decide)⟩

/-! ## Greedy word wrap (`drawSlideText`, lines 717-742)

`combinedText.split(' ')`, then greedy accumulation of words into
`currentLine` — a line is flushed when the measured test line exceeds
the available width and the current line is nonempty — then the last
line is flushed, and the trimmed text is forced as a single line when
no lines were produced. -/

/-- `combinedText.split(' ')`. -/
def splitSp : List Char → List (List Char)
  | [] => [[]]
  | c :: cs =>
    if c = ' ' then [] :: splitSp cs
    else
      match splitSp cs with
      | [] => [[c]]
      | w :: rest => (c :: w) :: rest

/-- JavaScript `String.trim` whitespace (the ASCII part, which is all
the wrap loop can produce here). -/
def isJsSpace (c : Char) : Bool :=
  c = ' ' || c = '\t' || c = '\n' || c = '\r' || c = '\x0b' || c = '\x0c'

/-- `combinedText.trim()`. -/
def trimChars (t : List Char) : List Char :=
  ((t.dropWhile isJsSpace).reverse.dropWhile isJsSpace).reverse

/-- The greedy wrap loop of lines 722-737: `cur` is `currentLine`,
empty words are skipped, the test line is the current line extended by
a space and the word (or the word itself on an empty current line), and
`measure` is `ctx.measureText`. -/
def wrapWords (measure : List Char → ℚ) (availableWidth : ℚ) :
    List (List Char) → List Char → List (List Char)
  | [], cur => if cur = [] then [] else [cur]
  | w :: ws, cur =>
    if w = [] then wrapWords measure availableWidth ws cur
    else if availableWidth < measure (if cur = [] then w else cur ++ ' ' :: w) ∧ cur ≠ [] then
      cur :: wrapWords measure availableWidth ws w
    else wrapWords measure availableWidth ws (if cur = [] then w else cur ++ ' ' :: w)

/-- Lines 717-742: the full line-breaking step on a paragraph text. -/
def breakLines (measure : List Char → ℚ) (availableWidth : ℚ) (text : List Char) :
    List (List Char) :=
  let lines := wrapWords measure availableWidth (splitSp text) []
  if lines = [] ∧ trimChars text ≠ [] then [trimChars text] else lines

/-- The word sequence of a text: split on spaces, empty fragments
dropped. -/
def wordsOf (t : List Char) : List (List Char) :=
  (splitSp t).filter (fun w => !w.isEmpty)

theorem splitSp_ne_nil : ∀ t : List Char, splitSp t ≠ []
  | [] => by simp [splitSp]
  | c :: cs => by
    by_cases hc : c = ' '
    · simp [splitSp, hc]
    · cases h : splitSp cs <;> simp [splitSp, hc, h]

theorem splitSp_append_sep : ∀ a b : List Char, splitSp (a ++ ' ' :: b) = splitSp a ++ splitSp b
  | [], b => by simp [splitSp]
  | c :: a, b => by
    by_cases hc : c = ' '
    · subst hc
      simp [splitSp, splitSp_append_sep a b]
    · obtain ⟨w, rest, hw⟩ := List.exists_cons_of_ne_nil (splitSp_ne_nil a)
      have h2 := splitSp_append_sep a b
      rw [hw] at h2
      simp [splitSp, hc, h2, hw]

theorem mem_splitSp_no_space : ∀ t w, w ∈ splitSp t → ' ' ∉ w
  | [], w, hw => by
    simp [splitSp] at hw
    simp [hw]
  | c :: cs, w, hw => by
    by_cases hc : c = ' '
    · rw [hc] at hw
      simp [splitSp] at hw
      rcases hw with rfl | hw
      · simp
      · exact mem_splitSp_no_space cs w hw
    · obtain ⟨w', rest, hw'⟩ := List.exists_cons_of_ne_nil (splitSp_ne_nil cs)
      rw [splitSp] at hw
      simp [hc, hw'] at hw
      rcases hw with rfl | hw
      · intro hmem
        rcases List.mem_cons.mp hmem with h | h
        · exact hc h.symm
        · exact mem_splitSp_no_space cs w' (hw' ▸ List.mem_cons_self w' rest) h
      · exact mem_splitSp_no_space cs w (hw' ▸ List.mem_cons_of_mem w' hw)

theorem splitSp_single : ∀ w : List Char, ' ' ∉ w → splitSp w = [w]
  | [], _ => rfl
  | c :: cs, h => by
    have hc : c ≠ ' ' := fun hcc => h (hcc ▸ List.mem_cons_self c cs)
    have hcs : splitSp cs = [cs] := splitSp_single cs (fun hm => h (List.mem_cons_of_mem c hm))
    simp [splitSp, hc, hcs]

theorem wordsOf_append_sep (a b : List Char) : wordsOf (a ++ ' ' :: b) = wordsOf a ++ wordsOf b := by
  rw [wordsOf, splitSp_append_sep, List.filter_append]
  rfl

theorem wordsOf_single (w : List Char) (hne : w ≠ []) (hsp : ' ' ∉ w) : wordsOf w = [w] := by
  rw [wordsOf, splitSp_single w hsp]
  simp [hne]

theorem wordsOf_nil : wordsOf [] = [] := rfl

/-- Content invariant of the greedy loop: the words of the emitted
lines are the pending current line's words followed by the nonempty
input words. -/
theorem wrapWords_content (measure : List Char → ℚ) (availableWidth : ℚ) :
    ∀ (ws : List (List Char)) (cur : List Char), (∀ w ∈ ws, ' ' ∉ w) →
      ((wrapWords measure availableWidth ws cur).map wordsOf).flatten
        = wordsOf cur ++ ws.filter (fun w => !w.isEmpty)
  | [], cur, _ => by
    by_cases hcur : cur = [] <;> simp [wrapWords, hcur, wordsOf_nil]
  | w :: ws, cur, hws => by
    have hw : ' ' ∉ w := hws w (List.mem_cons_self w ws)
    have hws' : ∀ u ∈ ws, ' ' ∉ u := fun u hu => hws u (List.mem_cons_of_mem w hu)
    by_cases hwe : w = []
    · subst hwe
      show (List.map wordsOf (wrapWords measure availableWidth ws cur)).flatten = _
      rw [wrapWords_content measure availableWidth ws cur hws']
      simp
    · rw [wrapWords, if_neg hwe]
      by_cases hcur : cur = []
      · subst hcur
        rw [if_pos (rfl : ([] : List Char) = [])]
        rw [if_neg (by simp : ¬ (availableWidth < measure w ∧ ([] : List Char) ≠ []))]
        rw [wrapWords_content measure availableWidth ws w hws']
        rw [wordsOf_nil, wordsOf_single w hwe hw]
        simp [hwe]
      · rw [if_neg hcur]
        by_cases hpush : availableWidth < measure (cur ++ ' ' :: w) ∧ cur ≠ []
        · rw [if_pos hpush]
          simp only [List.map_cons, List.flatten_cons]
          rw [wrapWords_content measure availableWidth ws w hws']
          rw [wordsOf_single w hwe hw]
          simp [hwe]
        · rw [if_neg hpush]
          rw [wrapWords_content measure availableWidth ws (cur ++ ' ' :: w) hws']
          rw [wordsOf_append_sep, wordsOf_single w hwe hw]
          simp [hwe]

/-- With a measure that is monotone under extending a line, a pending
overwide current line is always flushed as its own output line. -/
theorem wrapWords_self_mem (measure : List Char → ℚ) (availableWidth : ℚ)
    (mono : ∀ a b : List Char, a ≠ [] → b ≠ [] →
      measure a ≤ measure (a ++ ' ' :: b) ∧ measure b ≤ measure (a ++ ' ' :: b)) :
    ∀ (ws : List (List Char)) (cur : List Char), cur ≠ [] → availableWidth < measure cur →
      cur ∈ wrapWords measure availableWidth ws cur
  | [], cur, hcur, _ => by simp [wrapWords, hcur]
  | w :: ws, cur, hcur, hwide => by
    by_cases hwe : w = []
    · subst hwe
      show cur ∈ wrapWords measure availableWidth ws cur
      exact wrapWords_self_mem measure availableWidth mono ws cur hcur hwide
    · rw [wrapWords, if_neg hwe, if_neg hcur]
      have hpush : availableWidth < measure (cur ++ ' ' :: w) ∧ cur ≠ [] :=
        ⟨lt_of_lt_of_le hwide (mono cur w hcur hwe).1, hcur⟩
      rw [if_pos hpush]
      exact List.mem_cons_self cur _

/-- A word wider than the available width always becomes a line of its
own (monotone measure). -/
theorem wrapWords_oversized (measure : List Char → ℚ) (availableWidth : ℚ)
    (mono : ∀ a b : List Char, a ≠ [] → b ≠ [] →
      measure a ≤ measure (a ++ ' ' :: b) ∧ measure b ≤ measure (a ++ ' ' :: b))
    (w : List Char) (hwe : w ≠ []) (hwide : availableWidth < measure w) :
    ∀ (ws : List (List Char)) (cur : List Char), w ∈ ws →
      w ∈ wrapWords measure availableWidth ws cur
  | w' :: ws, cur, hmem => by
    rcases List.mem_cons.mp hmem with rfl | hmem2
    · rw [wrapWords, if_neg hwe]
      by_cases hcur : cur = []
      · subst hcur
        rw [if_pos (rfl : ([] : List Char) = [])]
        rw [if_neg (by simp : ¬ (availableWidth < measure w ∧ ([] : List Char) ≠ []))]
        exact wrapWords_self_mem measure availableWidth mono ws w hwe hwide
      · rw [if_neg hcur]
        have hpush : availableWidth < measure (cur ++ ' ' :: w) ∧ cur ≠ [] :=
          ⟨lt_of_lt_of_le hwide (mono cur w hcur hwe).2, hcur⟩
        rw [if_pos hpush]
        exact List.mem_cons_of_mem cur
          (wrapWords_self_mem measure availableWidth mono ws w hwe hwide)
    · by_cases hwe' : w' = []
      · subst hwe'
        show w ∈ wrapWords measure availableWidth ws cur
        exact wrapWords_oversized measure availableWidth mono w hwe hwide ws cur hmem2
      · rw [wrapWords, if_neg hwe']
        by_cases hpush : availableWidth < measure (if cur = [] then w' else cur ++ ' ' :: w')
            ∧ cur ≠ []
        · rw [if_pos hpush]
          exact List.mem_cons_of_mem cur
            (wrapWords_oversized measure availableWidth mono w hwe hwide ws w' hmem2)
        · rw [if_neg hpush]
          exact wrapWords_oversized measure availableWidth mono w hwe hwide ws _ hmem2

theorem splitSp_all_empty_all_space :
    ∀ t : List Char, (splitSp t).filter (fun w => !w.isEmpty) = [] → ∀ c ∈ t, c = ' '
  | [], _, c, hc => absurd hc (List.not_mem_nil c)
  | c :: cs, h, d, hd => by
    by_cases hc : c = ' '
    · subst hc
      simp [splitSp] at h
      rcases List.mem_cons.mp hd with rfl | hd2
      · rfl
      · exact splitSp_all_empty_all_space cs (by simpa using h) d hd2
    · exfalso
      obtain ⟨w, rest, hw⟩ := List.exists_cons_of_ne_nil (splitSp_ne_nil cs)
      simp [splitSp, hc, hw] at h

theorem trimChars_all_space (t : List Char) (h : ∀ c ∈ t, c = ' ') : trimChars t = [] := by
  have hdrop : t.dropWhile isJsSpace = [] := by
    rw [List.dropWhile_eq_nil_iff]
    intro x hx
    rw [h x hx]
    decide
  rw [trimChars, hdrop]
  rfl

/-- C4: for every input text and every positive available width, the
greedy word wrap preserves content — the concatenation of the words of
all produced lines is exactly the input's (nonempty) word sequence —
and a single word wider than the available width is still emitted alone
as its own line (for any measure that is monotone under extending a
line with a further word) rather than dropped. -/
theorem word_wrap_preserves_content (measure : List Char → ℚ) (availableWidth : ℚ)
    (text : List Char) (hpos : 0 < availableWidth) :
    ((breakLines measure availableWidth text).map wordsOf).flatten = wordsOf text
    ∧ ∀ w ∈ splitSp text, w ≠ [] → availableWidth < measure w →
        (∀ a b : List Char, a ≠ [] → b ≠ [] →
          measure a ≤ measure (a ++ ' ' :: b) ∧ measure b ≤ measure (a ++ ' ' :: b)) →
        w ∈ breakLines measure availableWidth text := by
  have hwords : ∀ w ∈ splitSp text, ' ' ∉ w := mem_splitSp_no_space text
  have hcontent := wrapWords_content measure availableWidth (splitSp text) [] hwords
  rw [wordsOf_nil, List.nil_append] at hcontent
  have hbreak : breakLines measure availableWidth text
      = wrapWords measure availableWidth (splitSp text) [] := by
    rw [breakLines]
    by_cases hnil : wrapWords measure availableWidth (splitSp text) [] = []
    · have hfilter : (splitSp text).filter (fun w => !w.isEmpty) = [] := by
        rw [← hcontent, hnil]
        rfl
      have htrim : trimChars text = [] :=
        trimChars_all_space text (splitSp_all_empty_all_space text hfilter)
      simp [htrim]
    · simp [hnil]
  constructor
  · rw [hbreak, hcontent, wordsOf]
  · intro w hw hwe hwide mono
    rw [hbreak]
    exact wrapWords_oversized measure availableWidth mono w hwe hwide (splitSp text) [] hw

theorem word_wrap_preserves_content_witness :
    (0 : ℚ) < 3
    ∧ (((breakLines (fun l => (l.length : ℚ)) 3 "ab cd".toList).map wordsOf).flatten =
          wordsOf "ab cd".toList
        ∧ ∀ w ∈ splitSp "ab cd".toList, w ≠ [] → (3 : ℚ) < (w.length : ℚ) →
            (∀ a b : List Char, a ≠ [] → b ≠ [] →
              ((a.length : ℚ) ≤ ((a ++ ' ' :: b).length : ℚ)
                ∧ (b.length : ℚ) ≤ ((a ++ ' ' :: b).length : ℚ))) →
            w ∈ breakLines (fun l => (l.length : ℚ)) 3 "ab cd".toList) :=
  ⟨by norm_num,
    word_wrap_preserves_content (fun l => (l.length : ℚ)) 3 "ab cd".toList (by norm_num)⟩

/-! ## XML entity decoding (`extractTextWithProperSpacing`, lines 468-494)

The run text is decoded by five global literal `String.replace` calls
in a fixed order — `&lt;` → `<`, `&gt;` → `>`, `&amp;` → `&`,
`&quot;` → `"`, `&apos;` → `'` — followed by the numeric character
reference regex `/&#x([0-9A-F]+);/gi`.  A global literal replace scans
left to right, matches are non-overlapping, and scanning resumes after
each replacement. -/

/-- Fuelled global literal `String.replace`: at each position, if the
pattern matches, emit the replacement and resume after the match,
otherwise emit the character and move on. -/
def replaceAllGo (p r : List Char) : ℕ → List Char → List Char
  | _, [] => []
  | 0, t => t
  | fuel + 1, c :: t =>
    if p.isPrefixOf (c :: t) then r ++ replaceAllGo p r fuel (t.drop (p.length - 1))
    else c :: replaceAllGo p r fuel t

/-- `text.replace(/p/g, r)` for a literal pattern `p`. -/
def replaceAll (p r t : List Char) : List Char := replaceAllGo p r t.length t

theorem replaceAllGo_fuel (p r : List Char) :
    ∀ (f₁ : ℕ) (t : List Char) (f₂ : ℕ), t.length ≤ f₁ → t.length ≤ f₂ →
      replaceAllGo p r f₁ t = replaceAllGo p r f₂ t := by
  intro f₁
  induction f₁ with
  | zero =>
    intro t f₂ h1 _
    have : t = [] := List.eq_nil_of_length_eq_zero (Nat.le_zero.mp h1)
    subst this
    cases f₂ <;> rfl
  | succ f ih =>
    intro t f₂ h1 h2
    match t with
    | [] => cases f₂ <;> rfl
    | c :: t' =>
      match f₂, h2 with
      | g + 1, h2 =>
        show (if p.isPrefixOf (c :: t') then r ++ replaceAllGo p r f (t'.drop (p.length - 1))
            else c :: replaceAllGo p r f t') =
          (if p.isPrefixOf (c :: t') then r ++ replaceAllGo p r g (t'.drop (p.length - 1))
            else c :: replaceAllGo p r g t')
        have hlen : t'.length ≤ f := by
          simp only [List.length_cons] at h1
          omega
        have hlen2 : t'.length ≤ g := by
          simp only [List.length_cons] at h2
          omega
        have hdl : (t'.drop (p.length - 1)).length ≤ t'.length := by
          rw [List.length_drop]
          omega
        by_cases hp : p.isPrefixOf (c :: t')
        · rw [if_pos hp, if_pos hp,
            ih (t'.drop (p.length - 1)) g (le_trans hdl hlen) (le_trans hdl hlen2)]
        · rw [if_neg hp, if_neg hp, ih t' g hlen hlen2]

theorem replaceAll_nil (p r : List Char) : replaceAll p r [] = [] := rfl

theorem replaceAll_pos (hd c : Char) (p' r t rest : List Char)
    (heq : (hd :: p') ++ rest = c :: t) :
    replaceAll (hd :: p') r (c :: t) = r ++ replaceAll (hd :: p') r rest := by
  have hp : (hd :: p').isPrefixOf (c :: t) := List.isPrefixOf_iff_prefix.mpr ⟨rest, heq⟩
  have ht : t = p' ++ rest := by
    have h2 : hd :: (p' ++ rest) = c :: t := by simpa using heq
    exact ((List.cons.injEq _ _ _ _ ▸ h2).2).symm
  have hdrop : t.drop ((hd :: p').length - 1) = rest := by
    rw [ht]
    exact List.drop_left p' rest
  have hlen : rest.length ≤ t.length := by
    rw [ht, List.length_append]
    omega
  show replaceAllGo (hd :: p') r ((c :: t).length) (c :: t) = _
  rw [List.length_cons]
  show (if (hd :: p').isPrefixOf (c :: t) then
      r ++ replaceAllGo (hd :: p') r t.length (t.drop ((hd :: p').length - 1))
    else c :: replaceAllGo (hd :: p') r t.length t) = _
  rw [if_pos hp, hdrop]
  congr 1
  exact replaceAllGo_fuel _ _ t.length rest rest.length hlen le_rfl

theorem replaceAll_neg (p r : List Char) (c : Char) (t : List Char)
    (hp : ¬ p <+: (c :: t)) :
    replaceAll p r (c :: t) = c :: replaceAll p r t := by
  have hp' : ¬ p.isPrefixOf (c :: t) := fun hb => hp (List.isPrefixOf_iff_prefix.mp hb)
  show replaceAllGo p r ((c :: t).length) (c :: t) = _
  rw [List.length_cons]
  show (if p.isPrefixOf (c :: t) then
      r ++ replaceAllGo p r t.length (t.drop (p.length - 1))
    else c :: replaceAllGo p r t.length t) = _
  rw [if_neg hp']
  rfl

theorem drop_append_length_add (s : List Char) (t : List Char) (k : ℕ) :
    (s ++ t).drop (s.length + k) = t.drop k := by
  induction s with
  | nil => simp
  | cons c s ih => simpa [Nat.succ_add] using ih

/-- A block of characters none of which can start the pattern passes
through a global replace unchanged. -/
theorem replaceAll_skip (hd : Char) (p' r : List Char) :
    ∀ s u : List Char, (∀ c ∈ s, c ≠ hd) →
      replaceAll (hd :: p') r (s ++ u) = s ++ replaceAll (hd :: p') r u
  | [], _, _ => by simp
  | c :: s, u, h => by
    have hc : c ≠ hd := h c (List.mem_cons_self c s)
    have hp : ¬ (hd :: p') <+: (c :: (s ++ u)) := by
      intro hpre
      rcases hpre with ⟨w, hw⟩
      simp only [List.cons_append] at hw
      exact hc ((List.cons.injEq _ _ _ _ ▸ hw).1).symm
    rw [List.cons_append, replaceAll_neg _ _ _ _ hp,
      replaceAll_skip hd p' r s u (fun d hd' => h d (List.mem_cons_of_mem c hd'))]
    rfl

/-- If no match starts within the first `n` positions, the first `n`
characters pass through unchanged. -/
theorem replaceAll_no_match_take (p r : List Char) :
    ∀ (n : ℕ) (t : List Char), (∀ j, j < n → ¬ p <+: t.drop j) →
      replaceAll p r t = t.take n ++ replaceAll p r (t.drop n)
  | 0, t, _ => by simp
  | n + 1, [], _ => by simp
  | n + 1, c :: t, h => by
    have h0 : ¬ p <+: (c :: t) := by
      have := h 0 (Nat.succ_pos n)
      simpa using this
    rw [replaceAll_neg p r c t h0,
      replaceAll_no_match_take p r n t (fun j hj => by
        have := h (j + 1) (Nat.succ_lt_succ hj)
        simpa using this)]
    rfl

/-- Helper: the head of a nonempty prefix of `oh :: ot` is `oh`, and
the head of anything of which `oh :: ot` is a prefix is `oh`. -/
theorem prefix_head_eq {d oh : Char} {ds ot : List Char} (h : (d :: ds) <+: (oh :: ot)) :
    d = oh := by
  rcases h with ⟨w, hw⟩
  simp only [List.cons_append] at hw
  exact (List.cons.injEq _ _ _ _ ▸ hw).1

/-- Helper: the pattern cannot match anywhere in the first
`(oh :: ot).length` positions of a text starting with the occurrence,
given the non-interference conditions. -/
theorem no_match_in_occurrence (hd : Char) (p' : List Char) (oh : Char) (ot : List Char)
    (hA : ∀ j, j < (oh :: ot).length →
      ¬ ((hd :: p') <+: (oh :: ot).drop j) ∧ ¬ ((oh :: ot).drop j <+: (hd :: p')))
    (u : List Char) :
    ∀ j, j < (oh :: ot).length → ¬ (hd :: p') <+: ((oh :: ot) ++ u).drop j := by
  intro j hj hmatch
  rw [List.drop_append_of_le_length (le_of_lt hj)] at hmatch
  by_cases hfits : (hd :: p').length ≤ ((oh :: ot).drop j).length
  · exact (hA j hj).1
      (List.prefix_of_prefix_length_le hmatch (List.prefix_append _ _) hfits)
  · push_neg at hfits
    exact (hA j hj).2
      (List.prefix_of_prefix_length_le (List.prefix_append _ _) hmatch (le_of_lt hfits))

/-- An occurrence of `oh :: ot` survives a global replace whose pattern
can neither match starting inside the occurrence (`hA`) nor start
before it and cover its first character (`hB`). -/
theorem replaceAll_preserve (hd : Char) (p' r : List Char) (oh : Char) (ot : List Char)
    (hA : ∀ j, j < (oh :: ot).length →
      ¬ ((hd :: p') <+: (oh :: ot).drop j) ∧ ¬ ((oh :: ot).drop j <+: (hd :: p')))
    (hB : ∀ c ∈ p', c ≠ oh) :
    ∀ t : List Char, (∃ k, (oh :: ot) <+: t.drop k) →
      ∃ k', (oh :: ot) <+: (replaceAll (hd :: p') r t).drop k'
  | [], h => by
    exfalso
    rcases h with ⟨k, w, hw⟩
    simp at hw
  | c :: t, h => by
    rcases h with ⟨k, hk⟩
    by_cases hp : (hd :: p') <+: (c :: t)
    · rcases hp with ⟨rest, hrest⟩
      rw [replaceAll_pos hd c p' r t rest hrest]
      by_cases hge : (hd :: p').length ≤ k
      · -- the occurrence lies beyond the match: recurse on the remainder
        have hk' : (oh :: ot) <+: rest.drop (k - (hd :: p').length) := by
          obtain ⟨m, rfl⟩ : ∃ m, k = (hd :: p').length + m := ⟨k - (hd :: p').length, by omega⟩
          have heq : (c :: t).drop ((hd :: p').length + m) = rest.drop m := by
            rw [← hrest, drop_append_length_add]
          rw [heq] at hk
          simpa [Nat.add_sub_cancel_left] using hk
        rcases replaceAll_preserve hd p' r oh ot hA hB rest ⟨_, hk'⟩ with ⟨k', hk''⟩
        exact ⟨r.length + k',
          by rwa [drop_append_length_add r (replaceAll (hd :: p') r rest) k']⟩
      · -- the occurrence would overlap the match: excluded by hA / hB
        exfalso
        push_neg at hge
        have hkdrop : (c :: t).drop k = (hd :: p').drop k ++ rest := by
          rw [← hrest]
          exact List.drop_append_of_le_length (le_of_lt hge)
        rw [hkdrop] at hk
        have hforward : ∀ v : List Char, (hd :: p').drop k = v →
            ((oh :: ot) <+: v ∨ v <+: (oh :: ot)) → False := by
          intro v hveq hcase
          rcases Nat.eq_zero_or_pos k with rfl | hkpos
          · simp only [List.drop_zero] at hveq
            subst hveq
            rcases hcase with hc | hc
            · exact (hA 0 (Nat.succ_pos _)).2 hc
            · exact (hA 0 (Nat.succ_pos _)).1 hc
          · have hvne : v ≠ [] := by
              rw [← hveq]
              simp only [ne_eq, List.drop_eq_nil_iff]
              omega
            rcases hv : v with _ | ⟨d, ds⟩
            · exact hvne hv
            · subst hv
              have hd_oh : d = oh := by
                rcases hcase with hc | hc
                · exact (prefix_head_eq hc).symm
                · exact prefix_head_eq hc
              have hmem : d ∈ p' := by
                have hdm : d ∈ (hd :: p').drop k := by
                  rw [hveq]
                  exact List.mem_cons_self d ds
                have heq2 : (hd :: p').drop k = p'.drop (k - 1) := by
                  obtain ⟨m, rfl⟩ : ∃ m, k = m + 1 := ⟨k - 1, by omega⟩
                  rw [List.drop_succ_cons]
                  simp
                rw [heq2] at hdm
                exact List.mem_of_mem_drop hdm
              exact hB d hmem hd_oh
        by_cases hfits : (oh :: ot).length ≤ ((hd :: p').drop k).length
        · exact hforward _ rfl (Or.inl
            (List.prefix_of_prefix_length_le hk (List.prefix_append _ _) hfits))
        · push_neg at hfits
          exact hforward _ rfl (Or.inr
            (List.prefix_of_prefix_length_le (List.prefix_append _ _) hk (le_of_lt hfits)))
    · rcases k with _ | k
      · -- occurrence at the front, no match at the front: the whole
        -- occurrence passes through untouched
        simp only [List.drop_zero] at hk
        rcases hk with ⟨u, hu⟩
        have hnomatch : ∀ j, j < (oh :: ot).length → ¬ (hd :: p') <+: (c :: t).drop j := by
          rw [← hu]
          exact no_match_in_occurrence hd p' oh ot hA u
        refine ⟨0, ?_⟩
        rw [List.drop_zero,
          replaceAll_no_match_take (hd :: p') r (oh :: ot).length (c :: t) hnomatch]
        have htake : (c :: t).take (oh :: ot).length = oh :: ot := by
          rw [← hu, List.take_left]
        rw [htake]
        exact List.prefix_append _ _
      · rw [replaceAll_neg _ _ _ _ hp]
        rcases replaceAll_preserve hd p' r oh ot hA hB t ⟨k, hk⟩ with ⟨k', hk''⟩
        exact ⟨k' + 1, hk''⟩
termination_by t _ => t.length
decreasing_by
  · have hl := congrArg List.length hrest
    simp only [List.length_append, List.length_cons] at hl
    simp only [List.length_cons]
    omega
  · simp [List.length_cons]

/-- An occurrence of the pattern followed by `suffix` is rewritten into
the replacement followed by `suffix`: the partial decoding that turns
`&amp;quot;` into `&quot;`. -/
theorem replaceAll_transform (hd : Char) (p' r suffix : List Char)
    (hins : ∀ c ∈ p', c ≠ hd) (hsuf : ∀ c ∈ suffix, c ≠ hd) :
    ∀ t : List Char, (∃ k, ((hd :: p') ++ suffix) <+: t.drop k) →
      ∃ k', (r ++ suffix) <+: (replaceAll (hd :: p') r t).drop k'
  | [], h => by
    exfalso
    rcases h with ⟨k, w, hw⟩
    simp at hw
  | c :: t, h => by
    rcases h with ⟨k, hk⟩
    by_cases hp : (hd :: p') <+: (c :: t)
    · rcases hp with ⟨rest, hrest⟩
      rw [replaceAll_pos hd c p' r t rest hrest]
      by_cases hge : (hd :: p').length ≤ k
      · have hk' : ((hd :: p') ++ suffix) <+: rest.drop (k - (hd :: p').length) := by
          obtain ⟨m, rfl⟩ : ∃ m, k = (hd :: p').length + m := ⟨k - (hd :: p').length, by omega⟩
          have heq : (c :: t).drop ((hd :: p').length + m) = rest.drop m := by
            rw [← hrest, drop_append_length_add]
          rw [heq] at hk
          simpa [Nat.add_sub_cancel_left] using hk
        rcases replaceAll_transform hd p' r suffix hins hsuf rest ⟨_, hk'⟩ with ⟨k', hk''⟩
        exact ⟨r.length + k',
          by rwa [drop_append_length_add r (replaceAll (hd :: p') r rest) k']⟩
      · push_neg at hge
        rcases Nat.eq_zero_or_pos k with rfl | hkpos
        · -- the occurrence is exactly at the match: the suffix follows
          simp only [List.drop_zero] at hk
          rcases hk with ⟨u, hu⟩
          have hrest_eq : rest = suffix ++ u := by
            have h1 : (hd :: p') ++ (suffix ++ u) = c :: t := by
              rw [← List.append_assoc]
              exact hu
            have h2 : (hd :: p') ++ rest = (hd :: p') ++ (suffix ++ u) := by
              rw [hrest, h1]
            exact List.append_cancel_left h2
          rw [hrest_eq, replaceAll_skip hd p' r suffix u hsuf]
          exact ⟨0, by
            rw [List.drop_zero]
            exact ⟨replaceAll (hd :: p') r u, by rw [List.append_assoc]⟩⟩
        · -- the occurrence would start strictly inside the match
          exfalso
          have hkdrop : (c :: t).drop k = (hd :: p').drop k ++ rest := by
            rw [← hrest]
            exact List.drop_append_of_le_length (le_of_lt hge)
          rw [hkdrop] at hk
          have hvne : (hd :: p').drop k ≠ [] := by
            simp only [ne_eq, List.drop_eq_nil_iff]
            omega
          rcases hveq : (hd :: p').drop k with _ | ⟨d, ds⟩
          · exact hvne hveq
          · rw [hveq] at hk
            have hhd : hd = d := by
              have hk2 : hd :: (p' ++ suffix) <+: d :: (ds ++ rest) := by
                simpa using hk
              exact prefix_head_eq hk2
            have hmem : d ∈ p' := by
              have hdm : d ∈ (hd :: p').drop k := by
                rw [hveq]
                exact List.mem_cons_self d ds
              have heq2 : (hd :: p').drop k = p'.drop (k - 1) := by
                obtain ⟨m, rfl⟩ : ∃ m, k = m + 1 := ⟨k - 1, by omega⟩
                rw [List.drop_succ_cons]
                simp
              rw [heq2] at hdm
              exact List.mem_of_mem_drop hdm
            exact hins d hmem hhd.symm
    · rcases k with _ | k
      · exfalso
        simp only [List.drop_zero] at hk
        exact hp ((List.prefix_append (hd :: p') suffix).trans hk)
      · rw [replaceAll_neg _ _ _ _ hp]
        rcases replaceAll_transform hd p' r suffix hins hsuf t ⟨k, hk⟩ with ⟨k', hk''⟩
        exact ⟨k' + 1, hk''⟩
termination_by t _ => t.length
decreasing_by
  · have hl := congrArg List.length hrest
    simp only [List.length_append, List.length_cons] at hl
    simp only [List.length_cons]
    omega
  · simp [List.length_cons]

/-- Whenever the pattern occurs at all, every character of the
replacement appears in the output: `&quot;` really produces a `"`. -/
theorem replaceAll_produce (hd : Char) (p' r : List Char) (ch : Char) (hch : ch ∈ r) :
    ∀ t : List Char, (∃ k, (hd :: p') <+: t.drop k) → ch ∈ replaceAll (hd :: p') r t
  | [], h => by
    exfalso
    rcases h with ⟨k, w, hw⟩
    simp at hw
  | c :: t, h => by
    rcases h with ⟨k, hk⟩
    by_cases hp : (hd :: p') <+: (c :: t)
    · rcases hp with ⟨rest, hrest⟩
      rw [replaceAll_pos hd c p' r t rest hrest]
      exact List.mem_append_left _ hch
    · rcases k with _ | k
      · exact absurd (by simpa using hk) hp
      · rw [replaceAll_neg _ _ _ _ hp]
        exact List.mem_cons_of_mem c (replaceAll_produce hd p' r ch hch t ⟨k, hk⟩)
termination_by t _ => t.length
decreasing_by
  simp [List.length_cons]

/-- A character that does not occur in the pattern survives a global
replace. -/
theorem replaceAll_mem (hd : Char) (p' r : List Char) (ch : Char) (hch : ch ∉ hd :: p') :
    ∀ t : List Char, ch ∈ t → ch ∈ replaceAll (hd :: p') r t
  | [], hm => absurd hm (List.not_mem_nil ch)
  | c :: t, hm => by
    by_cases hp : (hd :: p') <+: (c :: t)
    · rcases hp with ⟨rest, hrest⟩
      rw [replaceAll_pos hd c p' r t rest hrest]
      have hrest_mem : ch ∈ rest := by
        have hmem2 : ch ∈ (hd :: p') ++ rest := hrest ▸ hm
        rcases List.mem_append.mp hmem2 with hin | hin
        · exact absurd hin hch
        · exact hin
      exact List.mem_append_right _ (replaceAll_mem hd p' r ch hch rest hrest_mem)
    · rw [replaceAll_neg _ _ _ _ hp]
      rcases List.mem_cons.mp hm with rfl | hm2
      · exact List.mem_cons_self _ _
      · exact List.mem_cons_of_mem c (replaceAll_mem hd p' r ch hch t hm2)
termination_by t _ => t.length
decreasing_by
  · have hl := congrArg List.length hrest
    simp only [List.length_append, List.length_cons] at hl
    simp only [List.length_cons]
    omega
  · simp [List.length_cons]

/-- Hexadecimal digit per `[0-9A-F]` with the case-insensitive flag. -/
def isHexDigit (c : Char) : Bool :=
  c.isDigit || ('A' ≤ c && c ≤ 'F') || ('a' ≤ c && c ≤ 'f')

/-- The numeric value of a hex digit. -/
def hexDigitVal (c : Char) : ℕ :=
  if c.isDigit then c.toNat - '0'.toNat
  else if 'a' ≤ c then c.toNat - 'a'.toNat + 10
  else c.toNat - 'A'.toNat + 10

/-- `parseInt(hex, 16)`. -/
def hexToNat (ds : List Char) : ℕ := ds.foldl (fun a c => 16 * a + hexDigitVal c) 0

/-- `String.fromCodePoint` for scalar values (invalid code points, on
which JavaScript throws a `RangeError`, do not arise in this
development). -/
def codePointChar (n : ℕ) : Char := Char.ofNat n

/-- Parse `#x<hexdigits>;` directly after an `&`: the body of
`/&#x([0-9A-F]+);/gi` — the digit run is greedy, so a match exists
exactly when the maximal hex run is nonempty and followed by `;`. -/
def parseNumRef (t : List Char) : Option (ℕ × List Char) :=
  match t with
  | c1 :: c2 :: rest =>
    if c1 = '#' ∧ (c2 = 'x' ∨ c2 = 'X')
        ∧ rest.takeWhile isHexDigit ≠ []
        ∧ (rest.dropWhile isHexDigit).head? = some ';' then
      some (hexToNat (rest.takeWhile isHexDigit), (rest.dropWhile isHexDigit).tail)
    else none
  | _ => none

/-- Fuelled left-to-right scan applying the numeric-reference
replacement; a failed match after an `&` resumes one character later,
a successful one resumes after the `;`. -/
def numDecodeGo : ℕ → List Char → List Char
  | 0, t => t
  | _ + 1, [] => []
  | f + 1, c :: t =>
    if c = '&' then
      match parseNumRef t with
      | some (n, rest') => codePointChar n :: numDecodeGo f rest'
      | none => c :: numDecodeGo f t
    else c :: numDecodeGo f t

/-- `text.replace(/&#x([0-9A-F]+);/gi, ...)`. -/
def numDecode (t : List Char) : List Char := numDecodeGo t.length t

theorem parseNumRef_mem (ch : Char) (hhex : isHexDigit ch = false) (h2 : ch ≠ '#')
    (h3 : ch ≠ 'x') (h4 : ch ≠ 'X') (h5 : ch ≠ ';') :
    ∀ (t : List Char) (n : ℕ) (rest' : List Char),
      parseNumRef t = some (n, rest') → ch ∈ t → ch ∈ rest' := by
  intro t n rest' hparse hmem
  match t with
  | [] => simp [parseNumRef] at hparse
  | [c1] => simp [parseNumRef] at hparse
  | c1 :: c2 :: rest =>
    rw [parseNumRef] at hparse
    by_cases hcond : c1 = '#' ∧ (c2 = 'x' ∨ c2 = 'X')
        ∧ rest.takeWhile isHexDigit ≠ []
        ∧ (rest.dropWhile isHexDigit).head? = some ';'
    · rw [if_pos hcond] at hparse
      have hrest' : rest' = (rest.dropWhile isHexDigit).tail := by
        have := (Option.some.injEq _ _ ▸ hparse)
        exact ((Prod.mk.injEq _ _ _ _ ▸ this).2).symm
      rcases List.mem_cons.mp hmem with rfl | hmem2
      · exact absurd hcond.1 h2
      rcases List.mem_cons.mp hmem2 with rfl | hmem3
      · rcases hcond.2.1 with rfl | rfl
        · exact absurd rfl h3
        · exact absurd rfl h4
      · have hsplit : ch ∈ rest.takeWhile isHexDigit ++ rest.dropWhile isHexDigit := by
          rwa [List.takeWhile_append_dropWhile]
        rcases List.mem_append.mp hsplit with hin | hin
        · exact absurd (List.mem_takeWhile_imp hin) (by rw [hhex]; simp)
        · rcases hdw : rest.dropWhile isHexDigit with _ | ⟨d, ds⟩
          · rw [hdw] at hin
            exact absurd hin (List.not_mem_nil ch)
          · have hd_semi : d = ';' := by
              rw [hdw] at hcond
              simpa using hcond.2.2.2
            rw [hdw] at hin
            rcases List.mem_cons.mp hin with rfl | hin2
            · exact absurd hd_semi h5
            · rw [hrest', hdw]
              exact hin2
    · rw [if_neg hcond] at hparse
      exact absurd hparse (by simp)

theorem numDecodeGo_mem (ch : Char) (hhex : isHexDigit ch = false) (h1 : ch ≠ '&')
    (h2 : ch ≠ '#') (h3 : ch ≠ 'x') (h4 : ch ≠ 'X') (h5 : ch ≠ ';') :
    ∀ (fuel : ℕ) (t : List Char), ch ∈ t → ch ∈ numDecodeGo fuel t
  | 0, _, hm => hm
  | _ + 1, [], hm => absurd hm (List.not_mem_nil ch)
  | f + 1, c :: t, hm => by
    by_cases hc : c = '&'
    · rcases List.mem_cons.mp hm with rfl | hm2
      · exact absurd hc h1
      · cases hpr : parseNumRef t with
        | none =>
          simp only [numDecodeGo, if_pos hc, hpr]
          exact List.mem_cons_of_mem c
            (numDecodeGo_mem ch hhex h1 h2 h3 h4 h5 f t hm2)
        | some pr =>
          rcases pr with ⟨n, rest'⟩
          simp only [numDecodeGo, if_pos hc, hpr]
          exact List.mem_cons_of_mem _
            (numDecodeGo_mem ch hhex h1 h2 h3 h4 h5 f rest'
              (parseNumRef_mem ch hhex h2 h3 h4 h5 t n rest' hpr hm2))
    · simp only [numDecodeGo, if_neg hc]
      rcases List.mem_cons.mp hm with rfl | hm2
      · exact List.mem_cons_self _ _
      · exact List.mem_cons_of_mem c (numDecodeGo_mem ch hhex h1 h2 h3 h4 h5 f t hm2)

/-- Lines 479-485: decode XML entities in the source's fixed order —
`&lt;`, `&gt;`, `&amp;`, `&quot;`, `&apos;`, then numeric character
references. -/
def decodeEntities (t : List Char) : List Char :=
  numDecode
    (replaceAll "&apos;".toList "'".toList
      (replaceAll "&quot;".toList "\"".toList
        (replaceAll "&amp;".toList "&".toList
          (replaceAll "&gt;".toList ">".toList
            (replaceAll "&lt;".toList "<".toList t)))))

/-- C9 counterexample: `&amp;lt;` decodes to the four literal
characters `&lt;`, not to five characters as the claim counts them. -/
theorem entity_decode_length_counterexample :
    decodeEntities "&amp;lt;".toList = "&lt;".toList
    ∧ "&lt;".toList.length = 4
    ∧ (decodeEntities "&amp;lt;".toList).length ≠ 5 := by decide

/-- C9 (amended): the run-text entity decoder applies its replacements
in the fixed order `&lt;`, `&gt;`, `&amp;`, `&quot;`, `&apos;`, then
numeric references; consequently any run text containing the
doubly-escaped sequence `&amp;quot;` decodes to output containing a
literal `"` (the ampersand is decoded first and the result decoded
again), whereas `&amp;lt;` decodes to the four literal characters
`&lt;` — so decoding is not uniformly the inverse of XML escaping
across entities. -/
theorem entity_decode_double_escape (t : List Char)
    (h : ∃ k, "&amp;quot;".toList <+: t.drop k) :
    '"' ∈ decodeEntities t
    ∧ decodeEntities "&amp;lt;".toList = "&lt;".toList := by
  refine ⟨?_, by decide⟩
  have h1 : ∃ k, "&amp;quot;".toList <+:
      (replaceAll "&lt;".toList "<".toList t).drop k :=
    replaceAll_preserve '&' "lt;".toList "<".toList '&' "amp;quot;".toList
      (by decide) (by decide) t h
  have h2 : ∃ k, "&amp;quot;".toList <+:
      (replaceAll "&gt;".toList ">".toList
        (replaceAll "&lt;".toList "<".toList t)).drop k :=
    replaceAll_preserve '&' "gt;".toList ">".toList '&' "amp;quot;".toList
      (by decide) (by decide) _ h1
  have h3 : ∃ k, "&quot;".toList <+:
      (replaceAll "&amp;".toList "&".toList
        (replaceAll "&gt;".toList ">".toList
          (replaceAll "&lt;".toList "<".toList t))).drop k :=
    replaceAll_transform '&' "amp;".toList "&".toList "quot;".toList
      (by decide) (by decide) _ h2
  have h4 : '"' ∈ replaceAll "&quot;".toList "\"".toList
      (replaceAll "&amp;".toList "&".toList
        (replaceAll "&gt;".toList ">".toList
          (replaceAll "&lt;".toList "<".toList t))) :=
    replaceAll_produce '&' "quot;".toList "\"".toList '"' (by decide) _ h3
  have h5 : '"' ∈ replaceAll "&apos;".toList "'".toList
      (replaceAll "&quot;".toList "\"".toList
        (replaceAll "&amp;".toList "&".toList
          (replaceAll "&gt;".toList ">".toList
            (replaceAll "&lt;".toList "<".toList t)))) :=
    replaceAll_mem '&' "apos;".toList "'".toList '"' (by decide) _ h4
  exact numDecodeGo_mem '"' (by decide) (by decide) (by decide) (by decide) (by decide)
    (by decide) _ _ h5

theorem entity_decode_double_escape_witness :
    (∃ k, "&amp;quot;".toList <+: ("x=&amp;quot;1".toList).drop k)
    ∧ ('"' ∈ decodeEntities "x=&amp;quot;1".toList
        ∧ decodeEntities "&amp;lt;".toList = "&lt;".toList) :=
  ⟨⟨2, by decide⟩, entity_decode_double_escape "x=&amp;quot;1".toList ⟨2, by decide⟩⟩

end SkillStack
